import Mathlib

/-!
Verification of the `midnight-knowledgebase` review scripts.

This file gives a shallow embedding of the two Python analysis scripts
`check-disclosure.py` (witness-disclosure linting for Compact contracts) and
`analyze-complexity.py` (heuristic circuit-constraint estimation), and proves
the specification claims about them.  Strings are modelled as `List Char`,
Python regular-expression searches are compiled by hand into scanning
functions with the same leftmost-match, maximal-munch semantics (all the
character classes involved are disjoint from the characters that follow them,
so greedy matching never needs to backtrack, except for the optional groups,
which are treated explicitly).
-/

/-! ## Basic character and string utilities -/

/-- The characters of a string literal, as a list. -/
def str (s : String) : List Char := s.data

/-- Newline character. -/
def chNl : Char := Char.ofNat 10

/-- Opening curly brace. -/
def chLb : Char := Char.ofNat 123

/-- Closing curly brace. -/
def chRb : Char := Char.ofNat 125

/-- Single-quote character. -/
def chQ : Char := Char.ofNat 39

/-- Python `\s` / `str.strip` whitespace, restricted to ASCII:
space, tab, newline, carriage return, vertical tab, form feed. -/
def isSpaceC (c : Char) : Bool :=
  c = ' ' || c = Char.ofNat 9 || c = chNl || c = Char.ofNat 13 ||
  c = Char.ofNat 11 || c = Char.ofNat 12

/-- Python `\w` on ASCII input: letters, digits, underscore. -/
def isWordC (c : Char) : Bool := c.isAlpha || c.isDigit || c = '_'

/-- Python `\d` on ASCII input: decimal digits. -/
def isDigitC (c : Char) : Bool := c.isDigit

/-- Python `content.split('\n')` (keeps empty pieces; `[""]` on empty input). -/
def splitNl : List Char → List (List Char)
  | [] => [[]]
  | c :: cs =>
    if c = chNl then [] :: splitNl cs
    else
      match splitNl cs with
      | [] => [[c]]
      | h :: t => (c :: h) :: t

/-- Python `'\n'.join(lines)`. -/
def joinNl : List (List Char) → List Char
  | [] => []
  | [l] => l
  | l :: ls => l ++ chNl :: joinNl ls

/-- Python `line.strip()`: remove leading and trailing whitespace. -/
def pyStrip (l : List Char) : List Char :=
  ((l.dropWhile isSpaceC).reverse.dropWhile isSpaceC).reverse

/-- Does `n` occur as a prefix of `h`? -/
def startsWithL : List Char → List Char → Bool
  | [], _ => true
  | _ :: _, [] => false
  | a :: as, b :: bs => a = b && startsWithL as bs

/-- Python `n in h`: substring containment. -/
def containsSub (n : List Char) : List Char → Bool
  | [] => startsWithL n []
  | c :: cs => startsWithL n (c :: cs) || containsSub n cs

/-- Python `s.endswith(suf)`. -/
def endsWithL (suf l : List Char) : Bool := startsWithL suf.reverse l.reverse

/-- Match the literal `pre` at the front of `l`, returning the remainder. -/
def eatChars : List Char → List Char → Option (List Char)
  | [], l => some l
  | _ :: _, [] => none
  | a :: as, b :: bs => if a = b then eatChars as bs else none

/-- Maximum of a list of naturals (`0` on the empty list); agrees with
Python `max` on non-empty lists of non-negative ints. -/
def listMax (l : List Nat) : Nat := l.foldr Nat.max 0

/-- Python `int(d)` on a string of decimal digits. -/
def parseNatD (ds : List Char) : Nat :=
  ds.foldl (fun a c => a * 10 + (c.toNat - 48)) 0

/-- A `\b` boundary before a word character: start of string, or the
previous character is not a word character. -/
def wordBoundary : Option Char → Bool
  | none => true
  | some c => !isWordC c

/-! ## check-disclosure.py: data model -/

/-- `DisclosureIssue` dataclass of `check-disclosure.py`. -/
structure DisclosureIssue where
  line : Nat
  description : List Char
  severity : List Char
deriving DecidableEq

/-! ## check-disclosure.py: witness declarations

Regex: `witness\s+(\w+)\s*\([^)]*\)\s*:\s*(\w+(?:<[^>]+>)?)\s*;`. -/

/-- Try to match the witness-declaration pattern at the start of `l`,
returning the captured `(name, type)` on success.  The optional group
`(?:<[^>]+>)?` is tried greedily; if it cannot complete, the regex falls back
to not taking it, in which case the following `\s*;` necessarily fails on the
`<` that is still there — both failure paths return `none`. -/
def witnessDeclHere (l : List Char) : Option (List Char × List Char) :=
  match eatChars (str "witness") l with
  | none => none
  | some r0 =>
    match r0 with
    | [] => none
    | c0 :: _ =>
      if isSpaceC c0 then
        let r1 := r0.dropWhile isSpaceC
        match r1.span isWordC with
        | (name, r2) =>
          if name = [] then none
          else
            match r2.dropWhile isSpaceC with
            | '(' :: r4 =>
              match r4.span (fun c => !(c = ')')) with
              | (_, r5) =>
                match r5 with
                | ')' :: r6 =>
                  match r6.dropWhile isSpaceC with
                  | ':' :: r8 =>
                    let r9 := r8.dropWhile isSpaceC
                    match r9.span isWordC with
                    | (tw, r10) =>
                      if tw = [] then none
                      else
                        match r10 with
                        | '<' :: r11 =>
                          match r11.span (fun c => !(c = '>')) with
                          | (inner, r12) =>
                            match r12 with
                            | '>' :: r13 =>
                              if inner = [] then none
                              else
                                match r13.dropWhile isSpaceC with
                                | ';' :: _ => some (name, tw ++ '<' :: (inner ++ ['>']))
                                | _ => none
                            | _ => none
                        | _ =>
                          match r10.dropWhile isSpaceC with
                          | ';' :: _ => some (name, tw)
                          | _ => none
                  | _ => none
                | _ => none
            | _ => none
      else none

/-- `re.search` of the witness-declaration pattern in one line: try each
start position from the left, first success wins. -/
def witnessDeclSearch : List Char → Option (List Char × List Char)
  | [] => none
  | c :: cs =>
    match witnessDeclHere (c :: cs) with
    | some r => some r
    | none => witnessDeclSearch cs

/-- `find_witness_declarations`, inner loop: 1-based line numbers. -/
def findWitnessDeclsGo : Nat → List (List Char) → List (List Char × Nat × List Char)
  | _, [] => []
  | n, l :: ls =>
    match witnessDeclSearch l with
    | some (name, ty) => (name, n, ty) :: findWitnessDeclsGo (n + 1) ls
    | none => findWitnessDeclsGo (n + 1) ls

/-- `find_witness_declarations(content)`: all `(name, line, type)` triples. -/
def findWitnessDecls (lines : List (List Char)) : List (List Char × Nat × List Char) :=
  findWitnessDeclsGo 1 lines

/-! ## check-disclosure.py: low-entropy type test

`is_low_entropy_type` searches the type string for any of the regexes
`Uint<[1-9]>`, `Uint<1[0-9]>`, `Boolean`, `Enum<`. -/

/-- A single regex atom: a literal character or a character class. -/
inductive CAtom where
  | lit : Char → CAtom
  | cls : List Char → CAtom

/-- Does the atom match the character? -/
def atomMatch : CAtom → Char → Bool
  | .lit a, c => a = c
  | .cls s, c => s.contains c

/-- Does the atom sequence match a prefix of the string? -/
def matchPat : List CAtom → List Char → Bool
  | [], _ => true
  | _ :: _, [] => false
  | p :: ps, c :: cs => atomMatch p c && matchPat ps cs

/-- `re.search` for an atom sequence: does it match at any position? -/
def searchPat (pat : List CAtom) : List Char → Bool
  | [] => matchPat pat []
  | c :: cs => matchPat pat (c :: cs) || searchPat pat cs

/-- A list of literal atoms. -/
def litPat (l : List Char) : List CAtom := l.map CAtom.lit

/-- Atom sequence for `Uint<[1-9]>`. -/
def patUintLow : List CAtom :=
  litPat (str "Uint<") ++ [CAtom.cls (str "123456789"), CAtom.lit '>']

/-- Atom sequence for `Uint<1[0-9]>`. -/
def patUintTeen : List CAtom :=
  litPat (str "Uint<1") ++ [CAtom.cls (str "0123456789"), CAtom.lit '>']

/-- `is_low_entropy_type(type_str)`. -/
def isLowEntropyType (t : List Char) : Bool :=
  searchPat patUintLow t || searchPat patUintTeen t ||
  searchPat (litPat (str "Boolean")) t || searchPat (litPat (str "Enum<")) t

/-! ## check-disclosure.py: witness usages

Regex: `\b{witness_name}\s*\(\s*\)`. -/

/-- Match `name` followed by `\s*\(\s*\)` at the start of `l`. -/
def usageMatchHere (name : List Char) (l : List Char) : Bool :=
  match eatChars name l with
  | none => false
  | some r1 =>
    match r1.dropWhile isSpaceC with
    | '(' :: r2 =>
      match r2.dropWhile isSpaceC with
      | ')' :: _ => true
      | _ => false
    | _ => false

/-- `re.search` for the usage pattern, tracking the previous character for
the `\b` boundary. -/
def usageSearch (name : List Char) : Option Char → List Char → Bool
  | _, [] => false
  | prev, c :: cs =>
    (wordBoundary prev && usageMatchHere name (c :: cs)) || usageSearch name (some c) cs

/-- `find_witness_usages(content, name)`: `(line number, stripped line)` for
every line containing a usage match. -/
def findWitnessUsagesGo (name : List Char) : Nat → List (List Char) → List (Nat × List Char)
  | _, [] => []
  | n, l :: ls =>
    if usageSearch name none l then (n, pyStrip l) :: findWitnessUsagesGo name (n + 1) ls
    else findWitnessUsagesGo name (n + 1) ls

/-! ## check-disclosure.py: the disclosure rules -/

/-- Description string of the critical `persistentHash` issue. -/
def descR1 (name ty : List Char) : List Char :=
  str "Low-entropy witness " ++ [chQ] ++ name ++ [chQ] ++ str " (" ++ ty ++
  str ") used in persistentHash() - vulnerable to brute-force (AV-03/AV-06)"

/-- Description string of the high-severity `return` issue. -/
def descR2 (name : List Char) : List Char :=
  str "Witness " ++ [chQ] ++ name ++ [chQ] ++
  str " may flow to public output without disclose()"

/-- Description string of the medium-severity ledger-operation issue. -/
def descR3 (name op : List Char) : List Char :=
  str "Witness " ++ [chQ] ++ name ++ [chQ] ++ str " used in ledger " ++ op ++
  str "() - verify disclosure intent"

/-- Description string of the high-severity control-flow issue. -/
def descR4 : List Char :=
  str "Control flow depends on witness value - potential timing leak (AV-01)"

/-- The ledger operation names checked by the third rule. -/
def ledgerOps : List (List Char) :=
  [str "increment", str "decrement", str "write", str "push", str "set", str "insert"]

/-- Ledger-operation issues for one usage line (the `for op in ledger_ops`
loop): one medium issue per operation whose call pattern `.{op}(` occurs on
the line, when the witness name occurs and `disclose` does not. -/
def r3Issues (name : List Char) (ln : Nat) (lc : List Char) : List DisclosureIssue :=
  ledgerOps.flatMap (fun op =>
    if containsSub ('.' :: (op ++ ['('])) lc && containsSub name lc &&
       !containsSub (str "disclose") lc then
      [{ line := ln, description := descR3 name op, severity := str "medium" }]
    else [])

/-- Issues produced for one `(line number, stripped line)` usage of a witness
of the given name and declared type: the `persistentHash` rule, the `return`
rule, and the ledger-operation rule, in source order. -/
def issuesForUsage (name ty : List Char) (ln : Nat) (lc : List Char) : List DisclosureIssue :=
  (if containsSub (str "persistentHash") lc && isLowEntropyType ty then
     [{ line := ln, description := descR1 name ty, severity := str "critical" }]
   else [])
  ++ (if containsSub (str "return") lc && !containsSub (str "disclose") lc &&
         containsSub name lc then
       [{ line := ln, description := descR2 name, severity := str "high" }]
     else [])
  ++ r3Issues name ln lc

/-! ## check-disclosure.py: witness-dependent control flow

Regex: `if\s+.*\bget_\w+\s*\(\)`, searched per raw line. -/

/-- Match `get_\w+\s*\(\)` at the start of `l`. -/
def r4GetHere (l : List Char) : Bool :=
  match eatChars (str "get_") l with
  | none => false
  | some r =>
    match r.span isWordC with
    | (w, r2) =>
      if w = [] then false
      else
        match r2.dropWhile isSpaceC with
        | '(' :: ')' :: _ => true
        | _ => false

/-- Search for `\bget_\w+\s*\(\)` anywhere, tracking the previous character. -/
def r4GetSearch : Option Char → List Char → Bool
  | _, [] => false
  | prev, c :: cs => (wordBoundary prev && r4GetHere (c :: cs)) || r4GetSearch (some c) cs

/-- Match `if\s+.*\bget_\w+\s*\(\)` at the start of `l`: the literal `if`,
at least one whitespace character, then the `get_` call pattern anywhere in
the rest of the line. -/
def r4Here (l : List Char) : Bool :=
  match eatChars (str "if") l with
  | some (c :: cs) => isSpaceC c && r4GetSearch (some c) cs
  | _ => false

/-- `re.search` of the control-flow pattern in one line. -/
def r4SearchLine : List Char → Bool
  | [] => false
  | c :: cs => r4Here (c :: cs) || r4SearchLine cs

/-- The final loop of `check_disclosure_violations`: one high-severity issue
per line matching the control-flow pattern, with 1-based line numbers. -/
def r4IssuesGo : Nat → List (List Char) → List DisclosureIssue
  | _, [] => []
  | n, l :: ls =>
    (if r4SearchLine l then [{ line := n, description := descR4, severity := str "high" }]
     else [])
    ++ r4IssuesGo (n + 1) ls

/-- `check_disclosure_violations(content, lines)`. -/
def checkDisclosureViolations (content : List Char) : List DisclosureIssue :=
  ((findWitnessDecls (splitNl content)).flatMap (fun w =>
    (findWitnessUsagesGo w.1 1 (splitNl content)).flatMap (fun u =>
      issuesForUsage w.1 w.2.2 u.1 u.2)))
  ++ r4IssuesGo 1 (splitNl content)

/-! ## check-disclosure.py: main -/

/-- Result of reading the input file. -/
inductive ReadResult where
  | ok : List Char → ReadResult
  | notFound : ReadResult
  | readError : ReadResult

/-- Exit code of `check-disclosure.py`'s `main()`: `2` on missing argument,
wrong extension, or any read error; otherwise `0` when no issues are found
and `1` when some are. -/
def disclosureExitCode (argv : List String) (fs : ReadResult) : Nat :=
  match argv with
  | _ :: path :: _ =>
    if endsWithL (str ".compact") path.data then
      match fs with
      | .ok c => if (checkDisclosureViolations c).isEmpty then 0 else 1
      | .notFound => 2
      | .readError => 2
    else 2
  | _ => 2

/-! ## check-disclosure.py: severity sort

`main` sorts the issue list with Python's stable `list.sort`, keyed by
`severity_order.get(severity, 3)`.  Python's sort is the unique stable sort,
which the insertion sort below implements (an element is inserted after every
strictly smaller key, before the first greater-or-equal key, so earlier
elements with equal keys stay in front). -/

/-- `severity_order.get(x.severity, 3)`. -/
def severityOrder (s : List Char) : Nat :=
  if s = str "critical" then 0
  else if s = str "high" then 1
  else if s = str "medium" then 2
  else 3

/-- Sort key of an issue. -/
def issueKey (x : DisclosureIssue) : Nat := severityOrder x.severity

/-- Stable insertion of `x` into `l`: after all strictly smaller keys,
before the first greater-or-equal key. -/
def insertStable (key : α → Nat) (x : α) : List α → List α
  | [] => [x]
  | y :: ys => if key x ≤ key y then x :: y :: ys else y :: insertStable key x ys

/-- Stable insertion sort by a natural-number key. -/
def stableSortKey (key : α → Nat) : List α → List α
  | [] => []
  | x :: xs => insertStable key x (stableSortKey key xs)

/-- `issues.sort(key=lambda x: severity_order.get(x.severity, 3))`. -/
def sortIssues (l : List DisclosureIssue) : List DisclosureIssue :=
  stableSortKey issueKey l

/-! ## analyze-complexity.py: operation counts -/

/-- The `ops` dictionary built by `count_operations`.  `loop_iterations` is
an `Int` because Python computes `int(end) - int(start)`, which can be
negative. -/
structure OperationCounts where
  hash_operations : Nat
  sha256_operations : Nat
  merkle_proofs : Nat
  merkle_depth : Nat
  inequality_comparisons : Nat
  equality_comparisons : Nat
  loop_iterations : Int
  ec_operations : Nat
  collection_accesses : Nat

/-- Match `\b{name}\s*\(` at the start of `l` (given the previous character
for the boundary), returning the remainder after the `(`. -/
def litCallMatch (name : List Char) (prev : Option Char) (l : List Char) : Option (List Char) :=
  if wordBoundary prev then
    match eatChars name l with
    | some r =>
      match r.dropWhile isSpaceC with
      | '(' :: t => some t
      | _ => none
    | none => none
  else none

/-- One step of `[<>]=?`: a `<` or `>`, greedily taking a following `=`. -/
def ineqMatch (_ : Option Char) (l : List Char) : Option (List Char) :=
  match l with
  | c :: rest =>
    if c = '<' || c = '>' then
      match rest with
      | '=' :: t => some t
      | _ => some rest
    else none
  | [] => none

/-- One step of `==`. -/
def eqeqMatch (_ : Option Char) (l : List Char) : Option (List Char) :=
  match l with
  | '=' :: '=' :: t => some t
  | _ => none

/-- One step of `\[\w+\]`. -/
def collMatch (_ : Option Char) (l : List Char) : Option (List Char) :=
  match l with
  | '[' :: r =>
    match r.span isWordC with
    | (w, r2) =>
      if w = [] then none
      else
        match r2 with
        | ']' :: t => some t
        | _ => none
  | _ => none

/-- Non-overlapping `re.findall` count: scan left to right, trying the
matcher at each position; on a match, continue right after it.  The previous
character is tracked for `\b` boundaries.  `fuel` bounds the recursion; every
matcher used consumes at least one character, so `length + 1` is enough. -/
def scanCountGo (m : Option Char → List Char → Option (List Char)) :
    Nat → Option Char → List Char → Nat
  | 0, _, _ => 0
  | _ + 1, _, [] => 0
  | fuel + 1, prev, c :: cs =>
    match m prev (c :: cs) with
    | some rest =>
      let k := (c :: cs).length - rest.length
      1 + scanCountGo m fuel (((c :: cs).take k).getLast?) rest
    | none => scanCountGo m fuel (some c) cs

/-- `len(re.findall(pattern, body))`. -/
def scanCountB (m : Option Char → List Char → Option (List Char)) (l : List Char) : Nat :=
  scanCountGo m (l.length + 1) none l

/-- The optional `(?:Client)?` group: skip a `Client` literal when present.
(When it is present but the rest of the pattern fails, the fallback without
it would need `<` where `C` stands and fails too, so committing is sound.) -/
def clientSkip (r : List Char) : List Char :=
  match eatChars (str "Client") r with
  | some rc => rc
  | none => r

/-- The `(\d+)>` tail of the Merkle pattern: a non-empty digit run and the
closing bracket. -/
def merkleAfterLt (r2 : List Char) : Option (List Char × List Char) :=
  if r2.takeWhile isDigitC = [] then none
  else
    match r2.dropWhile isDigitC with
    | '>' :: t => some (r2.takeWhile isDigitC, t)
    | _ => none

/-- Match `MerkleTree(?:Client)?<(\d+)>` at the start of `l`, returning the
captured digit string and the remainder. -/
def merkleMatchHere (l : List Char) : Option (List Char × List Char) :=
  match eatChars (str "MerkleTree") l with
  | none => none
  | some r =>
    match clientSkip r with
    | '<' :: r2 => merkleAfterLt r2
    | _ => none

/-- Non-overlapping scan for the Merkle pattern, recording the 0-based start
position of each match together with its captured digit string. -/
def merkleScanGo : Nat → Nat → List Char → List (Nat × List Char)
  | 0, _, _ => []
  | _ + 1, _, [] => []
  | fuel + 1, i, c :: cs =>
    match merkleMatchHere (c :: cs) with
    | some (ds, rest) =>
      (i, ds) :: merkleScanGo fuel (i + ((c :: cs).length - rest.length)) rest
    | none => merkleScanGo fuel (i + 1) cs

/-- All Merkle matches of a body, with positions. -/
def merkleScanPos (body : List Char) : List (Nat × List Char) :=
  merkleScanGo (body.length + 1) 0 body

/-- `re.findall(r'MerkleTree(?:Client)?<(\d+)>', body)`: the captures. -/
def merkleFindall (body : List Char) : List (List Char) :=
  (merkleScanPos body).map Prod.snd

/-- Match `for\s+\w+\s+in\s+(\d+)\.\.(\d+)` at the start of `l`, returning
the two captured bounds (parsed) and the remainder. -/
def loopMatchHere (l : List Char) : Option ((Nat × Nat) × List Char) :=
  match eatChars (str "for") l with
  | some (c0 :: r0) =>
    if isSpaceC c0 then
      let r1 := (c0 :: r0).dropWhile isSpaceC
      match r1.span isWordC with
      | (v, r2) =>
        if v = [] then none
        else
          match r2 with
          | c1 :: r3 =>
            if isSpaceC c1 then
              let r4 := (c1 :: r3).dropWhile isSpaceC
              match eatChars (str "in") r4 with
              | some (c2 :: r5) =>
                if isSpaceC c2 then
                  let r6 := (c2 :: r5).dropWhile isSpaceC
                  match r6.span isDigitC with
                  | (d1, r7) =>
                    if d1 = [] then none
                    else
                      match r7 with
                      | '.' :: '.' :: r8 =>
                        match r8.span isDigitC with
                        | (d2, r9) =>
                          if d2 = [] then none
                          else some ((parseNatD d1, parseNatD d2), r9)
                      | _ => none
                else none
              | _ => none
            else none
          | [] => none
    else none
  | _ => none

/-- Non-overlapping scan for the loop pattern. -/
def loopScanGo : Nat → List Char → List (Nat × Nat)
  | 0, _ => []
  | _ + 1, [] => []
  | fuel + 1, c :: cs =>
    match loopMatchHere (c :: cs) with
    | some (ab, rest) => ab :: loopScanGo fuel rest
    | none => loopScanGo fuel cs

/-- The `loop_iterations` sum: `int(end) - int(start)` accumulated over all
loop matches. -/
def loopIterSum (body : List Char) : Int :=
  ((loopScanGo (body.length + 1) body).map
    (fun ab => (ab.2 : Int) - (ab.1 : Int))).foldl (fun a x => a + x) 0

/-- `count_operations(body)`. -/
def countOperations (body : List Char) : OperationCounts :=
  { hash_operations :=
      scanCountB (litCallMatch (str "persistentHash")) body
      + scanCountB (litCallMatch (str "persistentCommit")) body
      + scanCountB (litCallMatch (str "hash")) body,
    sha256_operations := scanCountB (litCallMatch (str "sha256")) body,
    merkle_proofs := (merkleFindall body).length,
    merkle_depth :=
      match merkleFindall body with
      | [] => 0
      | ds => listMax (ds.map parseNatD),
    inequality_comparisons := scanCountB ineqMatch body,
    equality_comparisons := scanCountB eqeqMatch body,
    loop_iterations := loopIterSum body,
    ec_operations := scanCountB (litCallMatch (str "ecMul")) body,
    collection_accesses := scanCountB collMatch body }

/-! ## analyze-complexity.py: constraint estimation -/

/-- The `CONSTRAINT_COSTS` table. -/
def constraintCosts : List (List Char × Nat) :=
  [ (str "sha256", 25000),
    (str "persistentHash", 1000),
    (str "persistentCommit", 1000),
    (str "hash", 1000),
    (str "ecMul", 7500),
    (str "comparison_inequality", 254),
    (str "comparison_equality", 1),
    (str "merkle_hash_per_level", 1000),
    (str "map_membership", 254),
    (str "set_membership", 254),
    (str "list_access", 254),
    (str "addition", 0),
    (str "subtraction", 0),
    (str "multiplication", 1),
    (str "division", 1) ]

/-- `CONSTRAINT_COSTS[k]`. -/
def costOf (k : List Char) : Nat :=
  match constraintCosts.lookup k with
  | some v => v
  | none => 0

/-- The total of `estimate_constraints(ops)`: each guarded term is added
when its count is positive; the Merkle term uses `merkle_depth or 20`; loop
iterations and equality comparisons never contribute (the loop multiplier is
computed but unused, and only a breakdown note is appended). -/
def estimateTotal (ops : OperationCounts) : Nat :=
  (if 0 < ops.hash_operations then
     ops.hash_operations * costOf (str "persistentHash") else 0)
  + (if 0 < ops.sha256_operations then
     ops.sha256_operations * costOf (str "sha256") else 0)
  + (if 0 < ops.ec_operations then
     ops.ec_operations * costOf (str "ecMul") else 0)
  + (if 0 < ops.merkle_proofs then
     ops.merkle_proofs * (if ops.merkle_depth = 0 then 20 else ops.merkle_depth) *
       costOf (str "merkle_hash_per_level") else 0)
  + (if 0 < ops.inequality_comparisons then
     ops.inequality_comparisons * costOf (str "comparison_inequality") else 0)
  + (if 0 < ops.collection_accesses then
     ops.collection_accesses * costOf (str "map_membership") else 0)

/-! ## analyze-complexity.py: circuit extraction -/

/-- One entry of the `circuits` list: `(name, start line, body text)`. -/
structure CircuitEntry where
  name : List Char
  startLine : Nat
  body : List Char

/-- Core of the circuit-header pattern from the `circuit` keyword on:
`circuit\s+(\w+)\s*\([^)]*\)\s*:\s*[^\{]+\{`.  Returns the captured name and
the line tail from the opening brace (i.e. from `match.end()-1`).  Since
`\s` is a subset of `[^{]`, the `\s*[^\{]+` part is equivalent to a
non-empty run of non-brace characters followed by the first brace. -/
def circuitCore (l : List Char) : Option (List Char × List Char) :=
  match eatChars (str "circuit") l with
  | some (c0 :: r0) =>
    if isSpaceC c0 then
      let r1 := (c0 :: r0).dropWhile isSpaceC
      match r1.span isWordC with
      | (name, r2) =>
        if name = [] then none
        else
          match r2.dropWhile isSpaceC with
          | '(' :: r4 =>
            match r4.span (fun c => !(c = ')')) with
            | (_, r5) =>
              match r5 with
              | ')' :: r6 =>
                match r6.dropWhile isSpaceC with
                | ':' :: r8 =>
                  match r8.span (fun c => !(c = chLb)) with
                  | (run, r9) =>
                    if run = [] then none
                    else
                      match r9 with
                      | b :: r10 => if b = chLb then some (name, b :: r10) else none
                      | [] => none
                | _ => none
              | _ => none
          | _ => none
    else none
  | _ => none

/-- The full circuit-header pattern `(?:export\s+)?circuit\s+...` at one
position: the optional `export` prefix is taken when present (if it is
present but the rest fails, the fallback without it would have to read
`circuit` where `export` stands, so it fails too). -/
def circuitHere (l : List Char) : Option (List Char × List Char) :=
  match eatChars (str "export") l with
  | some (c0 :: r0) =>
    if isSpaceC c0 then circuitCore ((c0 :: r0).dropWhile isSpaceC)
    else circuitCore l
  | _ => circuitCore l

/-- `re.search` of the circuit-header pattern in one line. -/
def circuitSearchLine : List Char → Option (List Char × List Char)
  | [] => none
  | c :: cs =>
    match circuitHere (c :: cs) with
    | some r => some r
    | none => circuitSearchLine cs

/-- `line.count('{') - line.count('}')`. -/
def braceDelta (l : List Char) : Int :=
  (l.countP (fun c => c = chLb) : Int) - (l.countP (fun c => c = chRb) : Int)

/-- Inner loop of `find_circuits`: starting at line index `j` with running
brace count `bc`, collect body lines while `bc > 0`; returns the collected
lines and the index where scanning resumes. -/
def fcInner : Nat → Nat → Int → List (List Char) → (List (List Char) × Nat)
  | 0, j, _, _ => ([], j)
  | _ + 1, j, _, [] => ([], j)
  | fuel + 1, j, bc, l :: ls =>
    if bc > 0 then
      match fcInner fuel (j + 1) (bc + braceDelta l) ls with
      | (acc, jr) => (l :: acc, jr)
    else ([], j)

/-- Outer loop of `find_circuits` over 0-based line index `i`. -/
def fcOuter : Nat → Nat → List (List Char) → List CircuitEntry
  | 0, _, _ => []
  | _ + 1, _, [] => []
  | fuel + 1, i, l :: ls =>
    match circuitSearchLine l with
    | none => fcOuter fuel (i + 1) ls
    | some (name, bodyFirst) =>
      match fcInner (ls.length + 1) (i + 1) (braceDelta l) ls with
      | (bodyRest, j) =>
        { name := name, startLine := i + 1, body := joinNl (bodyFirst :: bodyRest) }
        :: fcOuter fuel j (ls.drop (j - (i + 1)))

/-- `find_circuits(content)`. -/
def findCircuits (content : List Char) : List CircuitEntry :=
  fcOuter ((splitNl content).length + 1) 0 (splitNl content)

/-- Exit code of `analyze-complexity.py`'s `main()`: `1` on missing argument
or wrong extension; from `parse_compact_file`, `2` on `FileNotFoundError`
and `1` on any other read error; after a successful read the analysis always
exits `0`, both when no circuits are found and when some are. -/
def analyzerExitCode (argv : List String) (fs : ReadResult) : Nat :=
  match argv with
  | _ :: path :: _ =>
    if endsWithL (str ".compact") path.data then
      match fs with
      | .ok c => if (findCircuits c).isEmpty then 0 else 0
      | .notFound => 2
      | .readError => 1
    else 1
  | _ => 1

/-! ## Specification-side predicates

These restate, in declarative form, what the claims assert, to be compared
with the executable embeddings above. -/

/-- The classification condition that `is_low_entropy_type` actually
implements, stated declaratively: the type string *contains a substring*
`Uint<d>` with `d` a digit `1`–`9`, or `Uint<1d>` with `d` a digit, or
`Boolean`, or `Enum<`. -/
def LowEntropySpecSub (t : List Char) : Prop :=
  (∃ pre c post, (str "123456789").contains c = true ∧
      t = pre ++ str "Uint<" ++ c :: '>' :: post)
  ∨ (∃ pre c post, (str "0123456789").contains c = true ∧
      t = pre ++ str "Uint<1" ++ c :: '>' :: post)
  ∨ (∃ pre post, t = pre ++ str "Boolean" ++ post)
  ∨ (∃ pre post, t = pre ++ str "Enum<" ++ post)

/-- The classification condition claimed by the spec, stated structurally:
the type signature *is* a bit-width integer type of width 1–19, *is* the
boolean type, or *is* a tagged-enumeration type. -/
def LowEntropySpecStructural (t : List Char) : Prop :=
  (∃ w : Nat, 1 ≤ w ∧ w ≤ 19 ∧ t = str "Uint<" ++ str (Nat.repr w) ++ str ">")
  ∨ t = str "Boolean"
  ∨ (∃ args, t = str "Enum<" ++ args)

/-- A Merkle-structure type reference with an all-digits depth parameter
`ds`, starting at (0-based) position `i` of `body`. -/
def MerkleRefAt (body : List Char) (i : Nat) (ds : List Char) : Prop :=
  ds ≠ [] ∧ (∀ c ∈ ds, isDigitC c = true) ∧
  (∃ rest, body.drop i = str "MerkleTree<" ++ ds ++ '>' :: rest ∨
           body.drop i = str "MerkleTreeClient<" ++ ds ++ '>' :: rest)

/-! # Theorems -/

/-! ## Generic helper lemmas -/

/-- A guarded cost term with two factors equals the unguarded product. -/
theorem guardMul2 (n c : Nat) : (if 0 < n then n * c else 0) = n * c := by
  cases n <;> simp

/-- A guarded cost term with three factors equals the unguarded product. -/
theorem guardMul3 (n d c : Nat) : (if 0 < n then n * d * c else 0) = n * d * c := by
  cases n <;> simp

/-- A `flatMap` that yields a singleton under a boolean guard is a
`filter` followed by a `map`. -/
theorem flatMap_guard_singleton {α β : Type} (l : List α) (f : α → Bool) (g : α → β) :
    (l.flatMap (fun o => if f o then [g o] else [])) = (l.filter f).map g := by
  induction l with
  | nil => rfl
  | cons x xs ih =>
    by_cases h : f x <;> simp [List.flatMap_cons, List.filter_cons, h, ih]

/-- The final control-flow loop produces nothing when no line matches. -/
theorem r4IssuesGo_eq_nil (n : Nat) (ls : List (List Char))
    (h : ∀ l ∈ ls, r4SearchLine l = false) : r4IssuesGo n ls = [] := by
  induction ls generalizing n with
  | nil => rfl
  | cons l ls ih =>
    have h1 : r4SearchLine l = false := h l (List.mem_cons_self l ls)
    simp [r4IssuesGo, h1, ih (n + 1) (fun x hx => h x (List.mem_cons_of_mem _ hx))]

/-! ## C1 — files with no witness declarations -/

/-- C1 (amended).  For every input file with zero witness declarations *and
no line matching the witness-dependent control-flow pattern
`if\s+.*\bget_\w+\s*\(\)`*, the disclosure checker's issue list is empty and
the process exits with code 0.  (The original claim, without the
control-flow proviso, is refuted by `claim1_counterexample`: the
control-flow rule runs over every line independently of any witness
declaration.)
-/
theorem claim1_no_witness_no_issues :
    ∀ (content : List Char) (prog path : String),
      endsWithL (str ".compact") path.data = true →
      findWitnessDecls (splitNl content) = [] →
      (∀ l ∈ splitNl content, r4SearchLine l = false) →
      checkDisclosureViolations content = [] ∧
      disclosureExitCode [prog, path] (ReadResult.ok content) = 0 := by
  intro content prog path hp hw hr
  have hcv : checkDisclosureViolations content = [] := by
    unfold checkDisclosureViolations
    rw [hw, r4IssuesGo_eq_nil 1 (splitNl content) hr]
    rfl
  refine ⟨hcv, ?_⟩
  simp only [disclosureExitCode]
  rw [hp]
  simp [hcv]

/-- Witness for C1: a one-line file with no witness declaration and no
control-flow match. -/
theorem claim1_no_witness_no_issues_witness :
    checkDisclosureViolations (str "let a = b;") = [] ∧
    disclosureExitCode ["p", "x.compact"] (ReadResult.ok (str "let a = b;")) = 0 :=
  claim1_no_witness_no_issues (str "let a = b;") "p" "x.compact"
    (by decide) (by decide) (by decide)

/-- C1 (counterexample).  The file consisting of the single line
`if get_x()` contains zero witness declarations, yet the issue list is not
empty (the control-flow rule fires) and the tool exits 1, not 0.
-/
theorem claim1_counterexample :
    findWitnessDecls (splitNl (str "if get_x()")) = [] ∧
    checkDisclosureViolations (str "if get_x()") ≠ [] ∧
    disclosureExitCode ["p", "f.compact"] (ReadResult.ok (str "if get_x()")) = 1 := by
  decide

/-! ## C2 — a single `MerkleTree<24>` reference -/

/-- C2 (counterexample).  For the body consisting exactly of the one
reference `MerkleTree<24>`, the estimated constraint count is *not* 24000:
the angle brackets of the reference are also counted by the inequality
regex `[<>]=?`.
-/
theorem claim2_counterexample :
    estimateTotal (countOperations (str "MerkleTree<24>")) ≠ 24000 := by decide

/-- C2 (amended).  For a circuit body consisting of exactly one textual
reference `MerkleTree<24>` and nothing else, the Merkle term contributes
1 × 24 × 1000 = 24000, but the two angle brackets of the reference are also
counted as inequality comparisons (2 × 254 = 508), so the estimated
constraint count equals 24508.
-/
theorem claim2_merkle24_total :
    (countOperations (str "MerkleTree<24>")).merkle_proofs = 1 ∧
    (countOperations (str "MerkleTree<24>")).merkle_depth = 24 ∧
    (countOperations (str "MerkleTree<24>")).inequality_comparisons = 2 ∧
    (countOperations (str "MerkleTree<24>")).hash_operations = 0 ∧
    (countOperations (str "MerkleTree<24>")).sha256_operations = 0 ∧
    (countOperations (str "MerkleTree<24>")).ec_operations = 0 ∧
    (countOperations (str "MerkleTree<24>")).collection_accesses = 0 ∧
    estimateTotal (countOperations (str "MerkleTree<24>")) = 24000 + 2 * 254 := by
  decide

/-! ## C3 — the constraint total formula -/

/-- C3 (confirmed).  For every `OperationCounts`, the estimated constraint
total equals exactly
`hash × 1000 + sha256 × 25000 + ecMul × 7500 + merkle × depth × 1000 +
inequality × 254 + collectionIndex × 254`, where `depth` is the recorded
`merkle_depth` (20 when it is zero); and varying only the loop-iteration
sum or the equality-comparison count never changes the total.
-/
theorem claim3_total_formula :
    (∀ ops : OperationCounts,
      estimateTotal ops =
        ops.hash_operations * 1000 + ops.sha256_operations * 25000 +
        ops.ec_operations * 7500 +
        ops.merkle_proofs * (if ops.merkle_depth = 0 then 20 else ops.merkle_depth) * 1000 +
        ops.inequality_comparisons * 254 + ops.collection_accesses * 254) ∧
    (∀ (ops : OperationCounts) (li : Int) (eqc : Nat),
      estimateTotal { ops with loop_iterations := li, equality_comparisons := eqc } =
        estimateTotal ops) := by
  constructor
  · intro ops
    unfold estimateTotal
    simp only [guardMul2, guardMul3]
    rfl
  · intro ops li eqc
    rfl

/-! ## C5 — analyzer exit codes -/

/-- C5 (amended).  The complexity analyzer exits 0 on every successful
parse (whatever circuits are found, including none), exits 1 when the
argument is missing, when the path lacks the `.compact` extension, *or when
the read fails with anything other than file-not-found*, and exits 2
exactly on file-not-found.  (The original claim, that every read error
exits 2, is refuted by `claim5_counterexample`: only `FileNotFoundError`
exits 2; the generic `except` branch exits 1.)
-/
theorem claim5_exit_codes :
    (∀ fs, analyzerExitCode [] fs = 1) ∧
    (∀ p fs, analyzerExitCode [p] fs = 1) ∧
    (∀ (p path : String) (rest : List String) (fs : ReadResult),
      endsWithL (str ".compact") path.data = false →
      analyzerExitCode (p :: path :: rest) fs = 1) ∧
    (∀ (p path : String) (rest : List String) (c : List Char),
      endsWithL (str ".compact") path.data = true →
      analyzerExitCode (p :: path :: rest) (ReadResult.ok c) = 0) ∧
    (∀ (p path : String) (rest : List String),
      endsWithL (str ".compact") path.data = true →
      analyzerExitCode (p :: path :: rest) ReadResult.notFound = 2) ∧
    (∀ (p path : String) (rest : List String),
      endsWithL (str ".compact") path.data = true →
      analyzerExitCode (p :: path :: rest) ReadResult.readError = 1) := by
  refine ⟨fun fs => rfl, fun p fs => rfl, ?_, ?_, ?_, ?_⟩
  · intro p path rest fs h
    simp only [analyzerExitCode]
    rw [h]
    rfl
  · intro p path rest c h
    simp only [analyzerExitCode]
    rw [h]
    simp
  · intro p path rest h
    simp only [analyzerExitCode]
    rw [h]
    rfl
  · intro p path rest h
    simp only [analyzerExitCode]
    rw [h]
    rfl

/-- Witness for C5: concrete invocations hitting the 0, 2 and both 1
branches. -/
theorem claim5_exit_codes_witness :
    analyzerExitCode ["p", "b.compact"] (ReadResult.ok (str "q")) = 0 ∧
    analyzerExitCode ["p", "b.compact"] ReadResult.notFound = 2 ∧
    analyzerExitCode ["p", "b.txt"] ReadResult.notFound = 1 ∧
    analyzerExitCode [] ReadResult.notFound = 1 :=
  ⟨claim5_exit_codes.2.2.2.1 "p" "b.compact" [] (str "q") (by decide),
   claim5_exit_codes.2.2.2.2.1 "p" "b.compact" [] (by decide),
   claim5_exit_codes.2.2.1 "p" "b.txt" [] ReadResult.notFound (by decide),
   claim5_exit_codes.1 ReadResult.notFound⟩

/-- C5 (counterexample).  A read error other than file-not-found on a
well-formed invocation exits 1, not 2 as the claim states.
-/
theorem claim5_counterexample :
    analyzerExitCode ["prog", "a.compact"] ReadResult.readError = 1 ∧
    analyzerExitCode ["prog", "a.compact"] ReadResult.readError ≠ 2 := by decide

/-! ## C7 — one critical issue for a hashed low-entropy witness -/

/-- C7 (confirmed).  For the input consisting of the declaration
`witness getAge(): Uint<8>;` and the later line
`let h = persistentHash(getAge());`, the engine emits exactly one issue; it
is Critical, located on line 2 (the usage line), and its description
contains both `getAge` and `Uint<8>`.
-/
theorem claim7_single_critical :
    checkDisclosureViolations
        (str "witness getAge(): Uint<8>;" ++ chNl :: str "let h = persistentHash(getAge());")
      = [{ line := 2, description := descR1 (str "getAge") (str "Uint<8>"),
           severity := str "critical" }] ∧
    containsSub (str "getAge") (descR1 (str "getAge") (str "Uint<8>")) = true ∧
    containsSub (str "Uint<8>") (descR1 (str "getAge") (str "Uint<8>")) = true := by
  decide

/-! ## C8 — the severity sort is total and stable -/

/-- Membership in a stable insertion. -/
theorem mem_insertStable {α : Type} (key : α → Nat) (x a : α) (l : List α) :
    a ∈ insertStable key x l ↔ a = x ∨ a ∈ l := by
  induction l with
  | nil => simp [insertStable]
  | cons y ys ih =>
    by_cases hc : key x ≤ key y
    · simp [insertStable, hc]
    · simp [insertStable, hc, ih]
      tauto

/-- Stable insertion preserves sortedness by the key. -/
theorem insertStable_pairwise {α : Type} (key : α → Nat) (x : α) (l : List α)
    (h : l.Pairwise (fun a b => key a ≤ key b)) :
    (insertStable key x l).Pairwise (fun a b => key a ≤ key b) := by
  induction l with
  | nil => simp [insertStable]
  | cons y ys ih =>
    rcases List.pairwise_cons.mp h with ⟨hy, hys⟩
    by_cases hc : key x ≤ key y
    · rw [show insertStable key x (y :: ys) = x :: y :: ys from by simp [insertStable, hc]]
      refine List.pairwise_cons.mpr ⟨?_, h⟩
      intro b hb
      rcases List.mem_cons.mp hb with hb | hb
      · subst hb; exact hc
      · exact le_trans hc (hy b hb)
    · rw [show insertStable key x (y :: ys) = y :: insertStable key x ys from by
        simp [insertStable, hc]]
      refine List.pairwise_cons.mpr ⟨?_, ih hys⟩
      intro b hb
      rcases (mem_insertStable key x b ys).mp hb with hb | hb
      · subst hb; omega
      · exact hy b hb

/-- The elements with any fixed key are preserved, in order, by a stable
insertion: the inserted element lands in front of them iff it has that key. -/
theorem insertStable_filter {α : Type} (key : α → Nat) (x : α) (l : List α) (k : Nat) :
    (insertStable key x l).filter (fun a => key a == k) =
      if key x = k then x :: l.filter (fun a => key a == k)
      else l.filter (fun a => key a == k) := by
  induction l with
  | nil => by_cases h : key x = k <;> simp [insertStable, h]
  | cons y ys ih =>
    by_cases hc : key x ≤ key y
    · rw [show insertStable key x (y :: ys) = x :: y :: ys from by simp [insertStable, hc]]
      by_cases h : key x = k <;> simp [List.filter_cons, h]
    · rw [show insertStable key x (y :: ys) = y :: insertStable key x ys from by
        simp [insertStable, hc]]
      rw [List.filter_cons, ih, List.filter_cons]
      by_cases h : key x = k
      · have hyk : ¬(key y = k) := by omega
        simp [h, hyk]
      · simp [h]

/-- Insertion sort by key yields a list sorted by the key. -/
theorem stableSortKey_pairwise {α : Type} (key : α → Nat) (l : List α) :
    (stableSortKey key l).Pairwise (fun a b => key a ≤ key b) := by
  induction l with
  | nil => simp [stableSortKey]
  | cons x xs ih => exact insertStable_pairwise key x _ ih

/-- Insertion sort by key preserves the subsequence of elements having any
fixed key: this is exactly stability. -/
theorem stableSortKey_filter {α : Type} (key : α → Nat) (l : List α) (k : Nat) :
    (stableSortKey key l).filter (fun a => key a == k) =
      l.filter (fun a => key a == k) := by
  induction l with
  | nil => rfl
  | cons x xs ih =>
    rw [show stableSortKey key (x :: xs) = insertStable key x (stableSortKey key xs) from rfl]
    rw [insertStable_filter, ih, List.filter_cons]
    by_cases h : key x = k <;> simp [h]

/-- C8 (confirmed).  For every issue list, the reporter's severity sort is
total and stable: the sorted list is non-decreasing in the key
`severity_order.get(severity, 3)` (so every Critical issue precedes every
High issue, every High every Medium, and any other severity comes last),
and for each key value the subsequence of issues with that key is exactly
the one of the input — issues of equal severity keep their original
relative order.
-/
theorem claim8_severity_sort_stable :
    ∀ l : List DisclosureIssue,
      (sortIssues l).Pairwise (fun a b => issueKey a ≤ issueKey b) ∧
      ∀ k, (sortIssues l).filter (fun a => issueKey a == k) =
        l.filter (fun a => issueKey a == k) :=
  fun l => ⟨stableSortKey_pairwise issueKey l, fun k => stableSortKey_filter issueKey l k⟩

/-! ## C9 — `disclose` anywhere on the line suppresses R2 and R3 -/

/-- C9 (confirmed).  For every witness and every usage line whose text
contains the character sequence `disclose` anywhere (e.g. also inside a
longer identifier), every issue emitted for that usage is Critical — i.e.
the return rule (High) and the ledger-operation rule (Medium) are both
suppressed, since each tests `'disclose' not in line_content`.  The
suppression does not apply to the `persistentHash` rule (second conjunct: a
line containing `disclose` still gets its Critical issue) nor to the
control-flow rule (third conjunct).
-/
theorem claim9_disclose_suppression :
    (∀ (name ty : List Char) (ln : Nat) (lc : List Char),
      containsSub (str "disclose") lc = true →
      (issuesForUsage name ty ln lc).all (fun i => i.severity == str "critical") = true) ∧
    (issuesForUsage (str "getAge") (str "Uint<8>") 7
        (str "let x = disclose(persistentHash(getAge()));")).length = 1 ∧
    r4SearchLine (str "if disclose(get_flag())") = true := by
  refine ⟨?_, by decide, by decide⟩
  intro name ty ln lc h
  simp only [issuesForUsage, r3Issues, h, Bool.not_true, Bool.and_false, Bool.false_and,
    ledgerOps]
  simp only [if_false, List.flatMap_cons, List.flatMap_nil, List.append_nil, List.nil_append]
  split
  · simp
  · simp

/-- Witness for C9: the suppression applied to a concrete line containing
both `disclose` and a hashed low-entropy witness usage. -/
theorem claim9_disclose_suppression_witness :
    (issuesForUsage (str "getAge") (str "Uint<8>") 7
        (str "let x = disclose(persistentHash(getAge()));")).all
      (fun i => i.severity == str "critical") = true :=
  claim9_disclose_suppression.1 (str "getAge") (str "Uint<8>") 7
    (str "let x = disclose(persistentHash(getAge()));") (by decide)

/-! ## C10 — one Medium issue per ledger operation -/

/-- C10 (confirmed).  The ledger-operation rule emits one separate Medium
issue per ledger-operation name whose call pattern `.<op>(` appears on the
usage line (the operation list has no duplicates), and they are not merged:
the first conjunct shows the rule is exactly a filter of the operation list
followed by issue construction; the last conjunct runs the whole checker on
a declaration plus a single line containing both `.set(` and `.push(` calls
of the witness, producing exactly two Medium issues for the same witness
and line.
-/
theorem claim10_r3_per_operation :
    (∀ (name : List Char) (ln : Nat) (lc : List Char),
      r3Issues name ln lc =
        (ledgerOps.filter (fun op =>
            containsSub ('.' :: (op ++ ['('])) lc && containsSub name lc &&
            !containsSub (str "disclose") lc)).map
          (fun op => { line := ln, description := descR3 name op,
                       severity := str "medium" })) ∧
    ledgerOps.Nodup ∧
    checkDisclosureViolations
        (str "witness getBal(): Field;" ++ chNl :: str "a.set(getBal()); b.push(getBal());")
      = [{ line := 2, description := descR3 (str "getBal") (str "push"),
           severity := str "medium" },
         { line := 2, description := descR3 (str "getBal") (str "set"),
           severity := str "medium" }] := by
  refine ⟨?_, by decide, by decide⟩
  intro name ln lc
  exact flatMap_guard_singleton ledgerOps _ _

/-! ## C4 — the low-entropy classification -/

/-- A literal-prefix pattern matches exactly the strings starting with that
literal, with the rest of the pattern matching the remainder. -/
theorem matchPat_litPat_append (l : List Char) (rest : List CAtom) :
    ∀ w, matchPat (litPat l ++ rest) w = true ↔
      ∃ w2, w = l ++ w2 ∧ matchPat rest w2 = true := by
  induction l with
  | nil => intro w; simp [litPat]
  | cons a as ih =>
    intro w
    cases w with
    | nil => simp [litPat, matchPat]
    | cons c cs =>
      simp only [litPat, List.map_cons, List.cons_append, matchPat, Bool.and_eq_true,
        atomMatch, decide_eq_true_eq]
      constructor
      · rintro ⟨hac, hm⟩
        rcases (ih cs).mp (by simpa [litPat] using hm) with ⟨w2, hw2, hr⟩
        exact ⟨w2, by rw [← hac, hw2], hr⟩
      · rintro ⟨w2, hw2, hr⟩
        rcases List.cons.injEq .. ▸ hw2 with ⟨hca, hcs⟩
        exact ⟨hca.symm, by
          have := (ih cs).mpr ⟨w2, hcs, hr⟩
          simpa [litPat] using this⟩

/-- The two-atom tail `[class, literal]` matches exactly a class character
followed by the literal. -/
theorem matchPat_cls_lit (s : List Char) (g : Char) (w : List Char) :
    matchPat [CAtom.cls s, CAtom.lit g] w = true ↔
      ∃ c w2, w = c :: g :: w2 ∧ s.contains c = true := by
  cases w with
  | nil => simp [matchPat]
  | cons c cs =>
    cases cs with
    | nil => simp [matchPat, atomMatch]
    | cons d ds =>
      constructor
      · intro h
        have h1 : s.contains c = true ∧ g = d := by
          simpa [matchPat, atomMatch, Bool.and_eq_true, decide_eq_true_eq] using h
        exact ⟨c, ds, by rw [h1.2], h1.1⟩
      · rintro ⟨c2, w2, hw, hc2⟩
        injection hw with h1 h2
        injection h2 with h3 h4
        subst h1
        subst h3
        simp only [matchPat, atomMatch, hc2]
        simp

/-- `re.search` semantics of the atom scanner: a pattern is found iff some
split of the string lets it match a prefix of the remainder. -/
theorem searchPat_iff (pat : List CAtom) :
    ∀ t, searchPat pat t = true ↔ ∃ pre w, t = pre ++ w ∧ matchPat pat w = true := by
  intro t
  induction t with
  | nil =>
    constructor
    · intro h
      exact ⟨[], [], rfl, h⟩
    · rintro ⟨pre, w, heq, hm⟩
      rcases List.append_eq_nil.mp heq.symm with ⟨hp, hw⟩
      subst hw
      exact hm
  | cons c cs ih =>
    constructor
    · intro h
      rcases Bool.or_eq_true _ _ ▸ h with h1 | h2
      · exact ⟨[], c :: cs, rfl, h1⟩
      · rcases ih.mp h2 with ⟨pre, w, heq, hm⟩
        exact ⟨c :: pre, w, by rw [List.cons_append, ← heq], hm⟩
    · rintro ⟨pre, w, heq, hm⟩
      cases pre with
      | nil =>
        have : w = c :: cs := by simpa using heq.symm
        subst this
        exact Bool.or_eq_true _ _ ▸ Or.inl hm
      | cons p ps =>
        rcases List.cons.injEq .. ▸ heq with ⟨-, hcs⟩
        exact Bool.or_eq_true _ _ ▸ Or.inr (ih.mpr ⟨ps, w, hcs, hm⟩)

/-- Search for a pure literal pattern is substring containment. -/
theorem searchPat_lit_iff (l : List Char) (t : List Char) :
    searchPat (litPat l) t = true ↔ ∃ pre post, t = pre ++ l ++ post := by
  rw [searchPat_iff]
  constructor
  · rintro ⟨pre, w, ht, hm⟩
    rcases (matchPat_litPat_append l [] w).mp (by simpa using hm) with ⟨w2, hw, -⟩
    exact ⟨pre, w2, by rw [ht, hw, List.append_assoc]⟩
  · rintro ⟨pre, post, ht⟩
    refine ⟨pre, l ++ post, by rw [ht, List.append_assoc], ?_⟩
    exact (by simpa using (matchPat_litPat_append l [] (l ++ post)).mpr ⟨post, rfl, rfl⟩)

/-- Search for the `Uint<[1-9]>` pattern, declaratively. -/
theorem searchPat_uintLow_iff (t : List Char) :
    searchPat patUintLow t = true ↔
      ∃ pre c post, (str "123456789").contains c = true ∧
        t = pre ++ str "Uint<" ++ c :: '>' :: post := by
  rw [searchPat_iff]
  constructor
  · rintro ⟨pre, w, ht, hm⟩
    rcases (matchPat_litPat_append (str "Uint<") _ w).mp hm with ⟨w2, hw, hm2⟩
    rcases (matchPat_cls_lit _ '>' w2).mp hm2 with ⟨c, w3, hw2, hc⟩
    exact ⟨pre, c, w3, hc, by rw [ht, hw, hw2, ← List.append_assoc]⟩
  · rintro ⟨pre, c, post, hc, ht⟩
    refine ⟨pre, str "Uint<" ++ c :: '>' :: post, by rw [ht, List.append_assoc], ?_⟩
    exact (matchPat_litPat_append (str "Uint<") _ _).mpr
      ⟨c :: '>' :: post, rfl, (matchPat_cls_lit _ '>' _).mpr ⟨c, post, rfl, hc⟩⟩

/-- Search for the `Uint<1[0-9]>` pattern, declaratively. -/
theorem searchPat_uintTeen_iff (t : List Char) :
    searchPat patUintTeen t = true ↔
      ∃ pre c post, (str "0123456789").contains c = true ∧
        t = pre ++ str "Uint<1" ++ c :: '>' :: post := by
  rw [searchPat_iff]
  constructor
  · rintro ⟨pre, w, ht, hm⟩
    rcases (matchPat_litPat_append (str "Uint<1") _ w).mp hm with ⟨w2, hw, hm2⟩
    rcases (matchPat_cls_lit _ '>' w2).mp hm2 with ⟨c, w3, hw2, hc⟩
    exact ⟨pre, c, w3, hc, by rw [ht, hw, hw2, ← List.append_assoc]⟩
  · rintro ⟨pre, c, post, hc, ht⟩
    refine ⟨pre, str "Uint<1" ++ c :: '>' :: post, by rw [ht, List.append_assoc], ?_⟩
    exact (matchPat_litPat_append (str "Uint<1") _ _).mpr
      ⟨c :: '>' :: post, rfl, (matchPat_cls_lit _ '>' _).mpr ⟨c, post, rfl, hc⟩⟩

/-- C4 (amended).  `is_low_entropy_type` returns Low exactly when the type
signature *contains a substring* of the form `Uint<d>` (`d` = `1`…`9`),
`Uint<1d>` (`d` a digit — i.e. widths 1–19 written in one or two digits),
`Boolean`, or `Enum<`; in particular `Uint<20>` is classified Normal and
`Uint<19>` Low.  (The original claim — that the classification holds
exactly of signatures that *are* such a type — is refuted by
`claim4_counterexample`: the regexes are unanchored substring searches.)
-/
theorem claim4_low_entropy_characterization :
    (∀ t, isLowEntropyType t = true ↔ LowEntropySpecSub t) ∧
    isLowEntropyType (str "Uint<20>") = false ∧
    isLowEntropyType (str "Uint<19>") = true := by
  refine ⟨?_, by decide, by decide⟩
  intro t
  unfold isLowEntropyType LowEntropySpecSub
  simp only [Bool.or_eq_true]
  rw [searchPat_uintLow_iff, searchPat_uintTeen_iff, searchPat_lit_iff, searchPat_lit_iff]
  rw [or_assoc, or_assoc]

/-- Witness for C4: the characterization applied at `Uint<7>`. -/
theorem claim4_low_entropy_characterization_witness :
    isLowEntropyType (str "Uint<7>") = true ↔ LowEntropySpecSub (str "Uint<7>") :=
  claim4_low_entropy_characterization.1 (str "Uint<7>")

/-- C4 (counterexample).  `MyBoolean` is a declarable type signature that is
neither a bit-width integer type, nor the boolean type, nor a
tagged-enumeration type, yet `is_low_entropy_type` classifies it Low
(the `Boolean` regex matches as a substring), so the claimed "exactly when"
equivalence fails at it.
-/
theorem claim4_counterexample :
    ¬ (isLowEntropyType (str "MyBoolean") = true ↔
       LowEntropySpecStructural (str "MyBoolean")) := by
  intro h
  have h2 := h.mp (by decide)
  rcases h2 with ⟨w, -, -, hw⟩ | hb | ⟨args, ha⟩
  · have h4 : ('M' :: str "yBoolean" : List Char) =
        'U' :: (str "int<" ++ str (Nat.repr w) ++ str ">") := hw
    injection h4 with h5 h6
    exact absurd h5 (by decide)
  · exact absurd hb (by decide)
  · have h4 : ('M' :: str "yBoolean" : List Char) = 'E' :: (str "num<" ++ args) := ha
    injection h4 with h5 h6
    exact absurd h5 (by decide)

/-! ## C6 — Merkle reference counting -/

/-- `eatChars` characterization: it succeeds exactly on strings with the
literal prefix. -/
theorem eatChars_some (p : List Char) :
    ∀ l r, eatChars p l = some r ↔ l = p ++ r := by
  induction p with
  | nil => intro l r; simp [eatChars]
  | cons a as ih =>
    intro l r
    cases l with
    | nil => simp [eatChars]
    | cons b bs =>
      simp only [eatChars]
      by_cases hab : a = b
      · subst hab
        simp [ih]
      · rw [if_neg hab]
        constructor
        · intro h; cases h
        · intro h
          injection h with h1 h2
          exact absurd h1.symm hab

/-- `takeWhile`/`dropWhile` on a run of satisfying characters followed by a
failing one. -/
theorem span_concrete (p : Char → Bool) (a : List Char) (x : Char) (r : List Char)
    (ha : ∀ c ∈ a, p c = true) (hx : p x = false) :
    (a ++ x :: r).takeWhile p = a ∧ (a ++ x :: r).dropWhile p = x :: r := by
  induction a with
  | nil => simp [List.takeWhile_cons, List.dropWhile_cons, hx]
  | cons c cs ih =>
    have hc : p c = true := ha c (List.mem_cons_self c cs)
    have ihr := ih (fun d hd => ha d (List.mem_cons_of_mem _ hd))
    simp [List.takeWhile_cons, List.dropWhile_cons, hc, ihr.1, ihr.2]

/-- `clientSkip` when no `Client` literal is present. -/
theorem clientSkip_of_none {r : List Char} (h : eatChars (str "Client") r = none) :
    clientSkip r = r := by
  unfold clientSkip
  rw [h]

/-- `clientSkip` when the `Client` literal is present. -/
theorem clientSkip_of_some {r rc : List Char} (h : eatChars (str "Client") r = some rc) :
    clientSkip r = rc := by
  unfold clientSkip
  rw [h]

/-- Characterization of the `(\d+)>` tail matcher. -/
theorem merkleAfterLt_some (r2 ds rest : List Char) :
    merkleAfterLt r2 = some (ds, rest) ↔
      ds ≠ [] ∧ (∀ c ∈ ds, isDigitC c = true) ∧ r2 = ds ++ '>' :: rest := by
  constructor
  · intro h
    unfold merkleAfterLt at h
    by_cases hemp : r2.takeWhile isDigitC = []
    · rw [if_pos hemp] at h; cases h
    · rw [if_neg hemp] at h
      split at h
      · rename_i t hpat
        injection h with h2
        injection h2 with hds hrest
        refine ⟨by rw [← hds]; exact hemp, ?_, ?_⟩
        · intro c hcmem
          rw [← hds] at hcmem
          exact List.mem_takeWhile_imp hcmem
        · have hsplit : r2.takeWhile isDigitC ++ r2.dropWhile isDigitC = r2 :=
            List.takeWhile_append_dropWhile isDigitC r2
          rw [hpat, hds, hrest] at hsplit
          exact hsplit.symm
      · cases h
  · rintro ⟨hne, hdig, hr2⟩
    have hspan := span_concrete isDigitC ds '>' rest hdig (by decide)
    unfold merkleAfterLt
    rw [hr2, hspan.1, hspan.2, if_neg hne]
    rfl

/-- Characterization of the Merkle matcher: it succeeds exactly on strings
that are a full `MerkleTree<ds>` or `MerkleTreeClient<ds>` reference with a
non-empty digit parameter `ds`, followed by the remainder. -/
theorem merkleMatchHere_some (l ds rest : List Char) :
    merkleMatchHere l = some (ds, rest) ↔
      ds ≠ [] ∧ (∀ c ∈ ds, isDigitC c = true) ∧
      (l = str "MerkleTree<" ++ ds ++ '>' :: rest ∨
       l = str "MerkleTreeClient<" ++ ds ++ '>' :: rest) := by
  constructor
  · intro h
    unfold merkleMatchHere at h
    cases he : eatChars (str "MerkleTree") l with
    | none =>
      simp only [he] at h
      exact Option.noConfusion h
    | some r =>
      simp only [he] at h
      have hl : l = str "MerkleTree" ++ r := (eatChars_some _ _ _).mp he
      split at h
      · rename_i r2 hpat
        rcases (merkleAfterLt_some r2 ds rest).mp h with ⟨hne, hdig, hr2⟩
        refine ⟨hne, hdig, ?_⟩
        cases hc : eatChars (str "Client") r with
        | none =>
          left
          have hr : r = '<' :: r2 := by rw [← clientSkip_of_none hc, hpat]
          rw [hl, hr, hr2]
          rfl
        | some rc2 =>
          right
          have hrc2 : rc2 = '<' :: r2 := by rw [← clientSkip_of_some hc, hpat]
          have hr : r = str "Client" ++ ('<' :: r2) := by
            rw [(eatChars_some _ _ _).mp hc, hrc2]
          rw [hl, hr, hr2]
          rfl
      · cases h
  · rintro ⟨hne, hdig, hcase | hcase⟩
    · have he : eatChars (str "MerkleTree") l = some ('<' :: (ds ++ '>' :: rest)) :=
        (eatChars_some _ _ _).mpr (by rw [hcase]; rfl)
      have hcs : clientSkip ('<' :: (ds ++ '>' :: rest)) = '<' :: (ds ++ '>' :: rest) :=
        clientSkip_of_none rfl
      unfold merkleMatchHere
      rw [he]
      exact (merkleAfterLt_some _ _ _).mpr ⟨hne, hdig, rfl⟩
    · have he : eatChars (str "MerkleTree") l =
          some (str "Client" ++ ('<' :: (ds ++ '>' :: rest))) :=
        (eatChars_some _ _ _).mpr (by rw [hcase]; rfl)
      have hcs : clientSkip (str "Client" ++ ('<' :: (ds ++ '>' :: rest))) =
          '<' :: (ds ++ '>' :: rest) :=
        clientSkip_of_some ((eatChars_some _ _ _).mpr rfl)
      unfold merkleMatchHere
      rw [he]
      exact (merkleAfterLt_some _ _ _).mpr ⟨hne, hdig, rfl⟩

/-- Dropping one more element after a known cons. -/
theorem dropOneOfCons {body : List Char} {i : Nat} {c : Char} {cs : List Char}
    (h : body.drop i = c :: cs) : body.drop (i + 1) = cs := by
  have h2 : body.drop (i + 1) = (body.drop i).drop 1 := (List.drop_drop 1 i body).symm
  rw [h2, h]
  rfl

/-- Dropping past a known prefix. -/
theorem dropAddOfAppend {body : List Char} {i : Nat} {pre rest : List Char}
    (h : body.drop i = pre ++ rest) : body.drop (i + pre.length) = rest := by
  have h2 : body.drop (i + pre.length) = (body.drop i).drop pre.length :=
    (List.drop_drop pre.length i body).symm
  rw [h2, h, List.drop_left]

/-- A digit run followed by `>` determines its decomposition uniquely. -/
theorem digitRunUnique (a : List Char) (ha : ∀ c ∈ a, isDigitC c = true) :
    ∀ (b : List Char), (∀ c ∈ b, isDigitC c = true) →
    ∀ (u v : List Char), a ++ '>' :: u = b ++ '>' :: v → a = b ∧ u = v := by
  induction a with
  | nil =>
    intro b hb u v h
    cases b with
    | nil =>
      injection h with _ h2
      exact ⟨rfl, h2⟩
    | cons x bs =>
      exfalso
      injection h with h1 h2
      have hx := hb x (List.mem_cons_self x bs)
      rw [← h1] at hx
      exact absurd hx (by decide)
  | cons y as ih =>
    intro b hb u v h
    cases b with
    | nil =>
      exfalso
      injection h with h1 h2
      have hy := ha y (List.mem_cons_self y as)
      rw [h1] at hy
      exact absurd hy (by decide)
    | cons x bs =>
      injection h with h1 h2
      rcases ih (fun c hc => ha c (List.mem_cons_of_mem _ hc)) bs
        (fun c hc => hb c (List.mem_cons_of_mem _ hc)) u v h2 with ⟨hab, huv⟩
      exact ⟨by rw [h1, hab], huv⟩

/-- A string cannot decompose both as `MerkleTree<…` and as
`MerkleTreeClient<…`. -/
theorem mtNeqMtc (X Y : List Char) :
    str "MerkleTree<" ++ X = str "MerkleTreeClient<" ++ Y → False := by
  intro h
  have h2 : str "MerkleTree" ++ ('<' :: X) =
      str "MerkleTree" ++ ('C' :: (str "lient<" ++ Y)) := h
  have h3 := List.append_cancel_left h2
  injection h3 with h4 _
  exact absurd h4 (by decide)

/-- At a fixed position there is at most one Merkle reference (the digit
parameter is determined). -/
theorem merkleRefUnique {body : List Char} {i : Nat} {ds1 ds2 : List Char}
    (h1 : MerkleRefAt body i ds1) (h2 : MerkleRefAt body i ds2) : ds1 = ds2 := by
  obtain ⟨-, hd1, r1, hc1⟩ := h1
  obtain ⟨-, hd2, r2, hc2⟩ := h2
  rcases hc1 with hc1 | hc1 <;> rcases hc2 with hc2 | hc2
  · have h := hc1.symm.trans hc2
    rw [List.append_assoc, List.append_assoc] at h
    exact (digitRunUnique ds1 hd1 ds2 hd2 r1 r2 (List.append_cancel_left h)).1
  · exfalso
    have h := hc1.symm.trans hc2
    rw [List.append_assoc, List.append_assoc] at h
    exact mtNeqMtc _ _ h
  · exfalso
    have h := hc2.symm.trans hc1
    rw [List.append_assoc, List.append_assoc] at h
    exact mtNeqMtc _ _ h
  · have h := hc1.symm.trans hc2
    rw [List.append_assoc, List.append_assoc] at h
    exact (digitRunUnique ds1 hd1 ds2 hd2 r1 r2 (List.append_cancel_left h)).1

/-- A Merkle reference starts with the letter `M`. -/
theorem merkleRefAt_head {body : List Char} {j : Nat} {ds : List Char}
    (h : MerkleRefAt body j ds) : ∃ t, body.drop j = 'M' :: t := by
  obtain ⟨-, -, r, hc | hc⟩ := h
  · exact ⟨str "erkleTree<" ++ ds ++ '>' :: r, hc⟩
  · exact ⟨str "erkleTreeClient<" ++ ds ++ '>' :: r, hc⟩

/-- Soundness of the Merkle scan: every recorded pair is a Merkle reference
of the body at its recorded position. -/
theorem merkleScanGo_sound (body : List Char) :
    ∀ (fuel i : Nat) (l : List Char), body.drop i = l →
      ∀ p ∈ merkleScanGo fuel i l, MerkleRefAt body p.1 p.2 := by
  intro fuel
  induction fuel with
  | zero => intro i l hinv p hp; simp [merkleScanGo] at hp
  | succ fuel ih =>
    intro i l hinv p hp
    cases l with
    | nil => simp [merkleScanGo] at hp
    | cons c cs =>
      cases hm : merkleMatchHere (c :: cs) with
      | none =>
        rw [show merkleScanGo (fuel + 1) i (c :: cs) = merkleScanGo fuel (i + 1) cs from by
          simp [merkleScanGo, hm]] at hp
        exact ih (i + 1) cs (dropOneOfCons hinv) p hp
      | some dsrest =>
        obtain ⟨ds0, rest⟩ := dsrest
        rw [show merkleScanGo (fuel + 1) i (c :: cs) =
            (i, ds0) :: merkleScanGo fuel (i + ((c :: cs).length - rest.length)) rest from by
          simp [merkleScanGo, hm]] at hp
        rcases (merkleMatchHere_some _ _ _).mp hm with ⟨hne, hdig, hcase⟩
        rcases List.mem_cons.mp hp with hp1 | hp2
        · subst hp1
          exact ⟨hne, hdig, rest, by rw [hinv]; exact hcase⟩
        · have hk : body.drop (i + ((c :: cs).length - rest.length)) = rest := by
            rcases hcase with hcase | hcase
            · have hsplit : c :: cs = (str "MerkleTree<" ++ ds0 ++ ['>']) ++ rest := by
                rw [hcase]
                exact List.append_cons _ '>' rest
              have hlen : (c :: cs).length - rest.length =
                  (str "MerkleTree<" ++ ds0 ++ ['>']).length := by
                rw [hsplit, List.length_append]
                omega
              rw [hlen]
              exact dropAddOfAppend (by rw [hinv]; exact hsplit)
            · have hsplit : c :: cs = (str "MerkleTreeClient<" ++ ds0 ++ ['>']) ++ rest := by
                rw [hcase]
                exact List.append_cons _ '>' rest
              have hlen : (c :: cs).length - rest.length =
                  (str "MerkleTreeClient<" ++ ds0 ++ ['>']).length := by
                rw [hsplit, List.length_append]
                omega
              rw [hlen]
              exact dropAddOfAppend (by rw [hinv]; exact hsplit)
          exact ih _ rest hk p hp2

/-- Positions recorded by the Merkle scan are at least the scan start and
strictly increasing. -/
theorem merkleScanGo_bounds :
    ∀ (fuel i : Nat) (l : List Char),
      (∀ p ∈ merkleScanGo fuel i l, i ≤ p.1) ∧
      (merkleScanGo fuel i l).Pairwise (fun p q => p.1 < q.1) := by
  intro fuel
  induction fuel with
  | zero => intro i l; simp [merkleScanGo]
  | succ fuel ih =>
    intro i l
    cases l with
    | nil => simp [merkleScanGo]
    | cons c cs =>
      cases hm : merkleMatchHere (c :: cs) with
      | none =>
        rw [show merkleScanGo (fuel + 1) i (c :: cs) = merkleScanGo fuel (i + 1) cs from by
          simp [merkleScanGo, hm]]
        refine ⟨fun p hp => ?_, (ih (i + 1) cs).2⟩
        have := (ih (i + 1) cs).1 p hp
        omega
      | some dsrest =>
        obtain ⟨ds0, rest⟩ := dsrest
        rw [show merkleScanGo (fuel + 1) i (c :: cs) =
            (i, ds0) :: merkleScanGo fuel (i + ((c :: cs).length - rest.length)) rest from by
          simp [merkleScanGo, hm]]
        have hk1 : 1 ≤ (c :: cs).length - rest.length := by
          rcases (merkleMatchHere_some _ _ _).mp hm with ⟨-, -, hcase | hcase⟩
          · rw [hcase]
            simp only [List.length_append, List.length_cons]
            omega
          · rw [hcase]
            simp only [List.length_append, List.length_cons]
            omega
        constructor
        · intro p hp
          rcases List.mem_cons.mp hp with hp1 | hp2
          · subst hp1; exact Nat.le_refl i
          · have := (ih _ rest).1 p hp2
            omega
        · refine List.pairwise_cons.mpr ⟨?_, (ih _ rest).2⟩
          intro q hq
          have := (ih _ rest).1 q hq
          simp only
          omega

/-- Completeness of the Merkle scan: every Merkle reference of the body at
a position not yet passed is recorded. -/
theorem merkleScanGo_complete (body : List Char) :
    ∀ (fuel i : Nat) (l : List Char), body.drop i = l → l.length < fuel →
      ∀ j ds, i ≤ j → MerkleRefAt body j ds →
        ∃ q ∈ merkleScanGo fuel i l, q.1 = j ∧ q.2 = ds := by
  intro fuel
  induction fuel with
  | zero => intro i l _ hlen; omega
  | succ fuel ih =>
    intro i l hinv hlen j ds hij href
    cases l with
    | nil =>
      exfalso
      have h1 : body.length ≤ i := List.drop_eq_nil_iff.mp hinv
      have h2 : body.drop j = [] := List.drop_eq_nil_of_le (by omega)
      obtain ⟨t, hM⟩ := merkleRefAt_head href
      rw [h2] at hM
      cases hM
    | cons c cs =>
      cases hm : merkleMatchHere (c :: cs) with
      | none =>
        rcases Nat.eq_or_lt_of_le hij with heq | hlt
        · exfalso
          obtain ⟨hne, hdig, r, hc⟩ := href
          rw [← heq, hinv] at hc
          have := (merkleMatchHere_some (c :: cs) ds r).mpr ⟨hne, hdig, hc⟩
          rw [hm] at this
          cases this
        · rw [show merkleScanGo (fuel + 1) i (c :: cs) = merkleScanGo fuel (i + 1) cs from by
            simp [merkleScanGo, hm]]
          refine ih (i + 1) cs (dropOneOfCons hinv) ?_ j ds (by omega) href
          simp only [List.length_cons] at hlen
          omega
      | some dsrest =>
        obtain ⟨ds0, rest⟩ := dsrest
        rw [show merkleScanGo (fuel + 1) i (c :: cs) =
            (i, ds0) :: merkleScanGo fuel (i + ((c :: cs).length - rest.length)) rest from by
          simp [merkleScanGo, hm]]
        rcases (merkleMatchHere_some _ _ _).mp hm with ⟨hne0, hdig0, hcase0⟩
        obtain ⟨tail1, htail1, hsplit⟩ :
            ∃ tail1, (∀ x ∈ tail1, ¬ x = 'M') ∧ c :: cs = ('M' :: tail1) ++ rest := by
          rcases hcase0 with hc | hc
          · refine ⟨str "erkleTree<" ++ ds0 ++ ['>'], ?_, ?_⟩
            · intro x hx
              rcases List.mem_append.mp hx with hx1 | hx2
              · rcases List.mem_append.mp hx1 with hx3 | hx4
                · have hall : ∀ y ∈ str "erkleTree<", ¬ y = 'M' := by decide
                  exact hall x hx3
                · intro hxM
                  have := hdig0 x hx4
                  rw [hxM] at this
                  exact absurd this (by decide)
              · have hall : ∀ y ∈ (['>'] : List Char), ¬ y = 'M' := by decide
                exact hall x hx2
            · rw [hc, List.append_cons]
              rfl
          · refine ⟨str "erkleTreeClient<" ++ ds0 ++ ['>'], ?_, ?_⟩
            · intro x hx
              rcases List.mem_append.mp hx with hx1 | hx2
              · rcases List.mem_append.mp hx1 with hx3 | hx4
                · have hall : ∀ y ∈ str "erkleTreeClient<", ¬ y = 'M' := by decide
                  exact hall x hx3
                · intro hxM
                  have := hdig0 x hx4
                  rw [hxM] at this
                  exact absurd this (by decide)
              · have hall : ∀ y ∈ (['>'] : List Char), ¬ y = 'M' := by decide
                exact hall x hx2
            · rw [hc, List.append_cons]
              rfl
        by_cases hji : j = i
        · refine ⟨(i, ds0), List.mem_cons_self _ _, hji.symm, ?_⟩
          have h1 : MerkleRefAt body i ds0 := ⟨hne0, hdig0, rest, by rw [hinv]; exact hcase0⟩
          rw [hji] at href
          exact merkleRefUnique h1 href
        · by_cases hjk : i + ((c :: cs).length - rest.length) ≤ j
          · have hkinv : body.drop (i + ((c :: cs).length - rest.length)) = rest := by
              have hlen1 : (c :: cs).length - rest.length = ('M' :: tail1).length := by
                have := congrArg List.length hsplit
                simp [List.length_append] at this
                simp [List.length_cons]
                omega
              rw [hlen1]
              exact dropAddOfAppend (by rw [hinv]; exact hsplit)
            have hlen2 : rest.length < fuel := by
              have := congrArg List.length hsplit
              simp only [List.length_cons, List.length_append] at this hlen
              omega
            rcases ih _ rest hkinv hlen2 j ds hjk href with ⟨q, hq, hq2⟩
            exact ⟨q, List.mem_cons_of_mem _ hq, hq2⟩
          · exfalso
            push_neg at hjk
            have hij2 : i < j := by
              rcases Nat.eq_or_lt_of_le hij with h | h
              · exact absurd h.symm hji
              · exact h
            obtain ⟨t, hM⟩ := merkleRefAt_head href
            have hklen : (c :: cs).length - rest.length = tail1.length + 1 := by
              have := congrArg List.length hsplit
              simp only [List.length_cons, List.length_append] at this ⊢
              omega
            have hdj : body.drop j = ('M' :: tail1).drop (j - i) ++ rest := by
              have h0 : body.drop j = (body.drop i).drop (j - i) := by
                rw [List.drop_drop]
                congr 1
                omega
              rw [h0, hinv, hsplit, List.drop_append_eq_append_drop]
              have hz : (j - i) - ('M' :: tail1).length = 0 := by
                simp only [List.length_cons]
                omega
              rw [hz]
              rfl
            rw [hM] at hdj
            cases hdrop : ('M' :: tail1).drop (j - i) with
            | nil =>
              have : ('M' :: tail1).length ≤ j - i := List.drop_eq_nil_iff.mp hdrop
              simp only [List.length_cons] at this
              omega
            | cons m ms =>
              rw [hdrop] at hdj
              injection hdj with hm1 _
              have hmem : m ∈ ('M' :: tail1).drop (j - i) := by
                rw [hdrop]
                exact List.mem_cons_self _ _
              have hmem2 : m ∈ tail1 := by
                have hsub : ('M' :: tail1).drop (j - i) = tail1.drop (j - i - 1) := by
                  cases hd : j - i with
                  | zero => omega
                  | succ n => rfl
                rw [hsub] at hmem
                exact List.mem_of_mem_drop hmem
              exact htail1 m hmem2 hm1.symm

/-- C6 (amended).  For every circuit body there is a list `L` of positions
and captured digit strings such that: `merkle_proofs` is its length and
`merkle_depth` the maximum of its parsed depths; the recorded matches are at
strictly increasing positions; every recorded match is a genuine
Merkle-structure type reference *with an all-digits depth parameter*; and
conversely every such reference is recorded.  Hence a reference whose depth
parameter is a digit string is counted, with `merkleDepth` the maximum over
the parsed literals; a reference whose depth parameter is *not* a digit
string is not counted at all (it is not a `MerkleRefAt`), rather than being
counted with the default depth 20 as the original claim states — see
`claim6_counterexample`.  (The default depth 20 enters only the cost term,
when the recorded `merkle_depth` is 0; that is part of the total formula
proved for C3.)
-/
theorem claim6_merkle_counting :
    ∀ body : List Char, ∃ L : List (Nat × List Char),
      (countOperations body).merkle_proofs = L.length ∧
      (countOperations body).merkle_depth = listMax (L.map (fun p => parseNatD p.2)) ∧
      L.Pairwise (fun p q => p.1 < q.1) ∧
      (∀ p ∈ L, MerkleRefAt body p.1 p.2) ∧
      (∀ j ds, MerkleRefAt body j ds → ∃ q ∈ L, q.1 = j ∧ q.2 = ds) := by
  intro body
  refine ⟨merkleScanPos body, ?_, ?_, ?_, ?_, ?_⟩
  · simp [countOperations, merkleFindall]
  · have hdep : (countOperations body).merkle_depth =
        listMax ((merkleFindall body).map parseNatD) := by
      simp only [countOperations]
      cases h : merkleFindall body with
      | nil => simp [listMax]
      | cons d dsx => rfl
    rw [hdep, merkleFindall, List.map_map]
    rfl
  · exact (merkleScanGo_bounds _ _ _).2
  · exact fun p hp => merkleScanGo_sound body _ 0 body rfl p hp
  · intro j ds href
    exact merkleScanGo_complete body (body.length + 1) 0 body rfl (by omega) j ds
      (Nat.zero_le j) href

/-- Witness for C6: the characterization instantiated at a body with one
`MerkleTree` and one `MerkleTreeClient` reference. -/
theorem claim6_merkle_counting_witness :
    ∃ L : List (Nat × List Char),
      (countOperations (str "MerkleTree<5> MerkleTreeClient<12>")).merkle_proofs =
        L.length ∧
      (countOperations (str "MerkleTree<5> MerkleTreeClient<12>")).merkle_depth =
        listMax (L.map (fun p => parseNatD p.2)) ∧
      L.Pairwise (fun p q => p.1 < q.1) ∧
      (∀ p ∈ L, MerkleRefAt (str "MerkleTree<5> MerkleTreeClient<12>") p.1 p.2) ∧
      (∀ j ds, MerkleRefAt (str "MerkleTree<5> MerkleTreeClient<12>") j ds →
        ∃ q ∈ L, q.1 = j ∧ q.2 = ds) :=
  claim6_merkle_counting (str "MerkleTree<5> MerkleTreeClient<12>")

/-- C6 (counterexample).  The body `x = MerkleTree<abc>;` contains a
Merkle-structure type reference whose depth parameter `abc` cannot be parsed
as an integer.  Contrary to the claim, the reference is not counted with the
default depth 20 — it is not counted at all: `merkle_proofs` is 0,
`merkle_depth` is 0, and the estimated total is 508 (only the two angle
brackets, counted as inequality comparisons), with no Merkle cost term.
-/
theorem claim6_counterexample :
    (∃ pre post : List Char,
      str "x = MerkleTree<abc>;" = pre ++ str "MerkleTree<" ++ str "abc" ++ str ">" ++ post) ∧
    (countOperations (str "x = MerkleTree<abc>;")).merkle_proofs = 0 ∧
    (countOperations (str "x = MerkleTree<abc>;")).merkle_depth = 0 ∧
    estimateTotal (countOperations (str "x = MerkleTree<abc>;")) = 508 := by
  refine ⟨⟨str "x = ", str ";", by decide⟩, by decide, by decide, by decide⟩
